import Mathlib

/-!
Shallow embedding of `obspy.signal.trigger` (trigger.py): the five
characteristic-function variants (recursive, classic, delayed STA/LTA,
Carl-Sta-Trig, Z-detector) and the trigger-onset detector.

Float arithmetic is modelled exactly over ℚ.  Python/numpy failure modes
(ZeroDivisionError, IndexError, shape mismatch) are modelled by an explicit
error channel; non-finite results of a numpy division by zero (inf/nan)
are modelled by `none`.
-/

/-- Errors raised by the Python/numpy code paths.  The spec's
`InvalidWindowError` is included so that its absence can be stated:
no definition below ever produces it. -/
inductive PyError where
  | zeroDivision
  | indexError
  | valueError
  | invalidWindow
  deriving DecidableEq

/-- numpy elementwise addition of two 1-D arrays; shapes must agree. -/
def npAdd (x y : List ℚ) : Except PyError (List ℚ) :=
  if x.length = y.length then .ok (List.zipWith (· + ·) x y) else .error .valueError

/-- numpy elementwise subtraction of two 1-D arrays; shapes must agree. -/
def npSub (x y : List ℚ) : Except PyError (List ℚ) :=
  if x.length = y.length then .ok (List.zipWith (· - ·) x y) else .error .valueError

/-- Python slice `l[s : e]` with step 1: a negative end counts from the
end of the list, out-of-range bounds are clamped.  (Every slice start in
trigger.py is a loop counter, hence a natural number.) -/
def pySlice (l : List ℚ) (s : ℕ) (e : ℤ) : List ℚ :=
  let e2 : ℤ := if e < 0 then l.length + e else e
  (l.take (min (max e2 0) l.length).toNat).drop s

/-- numpy slice assignment `l[0:n] = v`. -/
def maskFront (l : List ℚ) (n : ℕ) (v : ℚ) : List ℚ :=
  List.replicate (min n l.length) v ++ l.drop n

/-- numpy scalar division `x / y`: a zero divisor yields a non-finite
float (inf or nan), collapsed here to `none`. -/
def npDiv (x y : ℚ) : Option ℚ := if y = 0 then none else some (x / y)

/-- numpy elementwise division of two 1-D arrays; shapes must agree. -/
def npDivVec (x y : List ℚ) : Except PyError (List (Option ℚ)) :=
  if x.length = y.length then .ok (List.zipWith npDiv x y) else .error .valueError

/-- Python scalar division: raises ZeroDivisionError on a zero divisor. -/
def pyDiv (x y : ℚ) : Except PyError ℚ :=
  if y = 0 then .error .zeroDivision else .ok (x / y)

/-- Python/numpy integer indexing: a negative index counts from the end,
anything outside `[-len, len)` raises IndexError. -/
def pyGet (l : List ℚ) (k : ℤ) : Except PyError ℚ :=
  if 0 ≤ k ∧ k < l.length then .ok (l.getD k.toNat 0)
  else if -(l.length : ℤ) ≤ k ∧ k < 0 then .ok (l.getD (k + l.length).toNat 0)
  else .error .indexError

/-- np.mean (the empty case, nan in numpy, is never hit by the theorems
below). -/
def npMean (l : List ℚ) : ℚ := l.sum / l.length

/-- Largest `k ≤ bound` with `k * k ≤ n` (structurally recursive integer
square root, counting down from `bound`). -/
def natSqrtGo (n : ℕ) : ℕ → ℕ
  | 0 => 0
  | k + 1 => if (k + 1) * (k + 1) ≤ n then k + 1 else natSqrtGo n k

/-- Integer square root: the largest `k` with `k * k ≤ n`. -/
def natSqrt (n : ℕ) : ℕ := natSqrtGo n n

/-- Square root on ℚ standing for np.sqrt inside np.std: exact whenever
the radicand is the square of a rational (its numerator and denominator
are then perfect squares); every theorem below evaluates it only at such
values. -/
def ratSqrt (q : ℚ) : ℚ := (natSqrt q.num.toNat : ℚ) / (natSqrt q.den : ℚ)

/-- `acc = acc + f i` for `i in range n`: the accumulation pattern of all
moving-window loops in trigger.py. -/
def npSumRange (f : ℕ → Except PyError (List ℚ)) (n : ℕ) (init : List ℚ) :
    Except PyError (List ℚ) :=
  (List.range n).foldlM (fun acc i => do npAdd acc (← f i)) init

/-- The sample-by-sample loop of recSTALTAPy: `i` is the current index,
`sta`/`lta` the running averages, `xs` the samples from index `i` on.
Python evaluates `sta / lta` before the warm-up mask, so a vanishing `lta`
raises ZeroDivisionError even inside the masked region. -/
def recGo (csta clta : ℚ) (nlta : ℕ) : ℕ → ℚ → ℚ → List ℚ → Except PyError (List ℚ)
  | _, _, _, [] => .ok []
  | i, sta, lta, x :: xs =>
    let sq := x ^ 2
    let sta2 := csta * sq + (1 - csta) * sta
    let lta2 := clta * sq + (1 - clta) * lta
    if lta2 = 0 then .error .zeroDivision
    else do
      let rest ← recGo csta clta nlta (i + 1) sta2 lta2 xs
      .ok ((if i < nlta then 0 else sta2 / lta2) :: rest)

/-- recSTALTAPy from trigger.py: recursive STA/LTA.  `1./nsta` and
`1./nlta` are computed before the loop, so a zero window length raises
ZeroDivisionError immediately; `charfct[0]` keeps its initial 0, the loop
starts at index 1 with `sta = 0`, `lta = 1e-99`. -/
def recSTALTAPy (a : List ℚ) (nsta nlta : ℕ) : Except PyError (List ℚ) :=
  if nsta = 0 ∨ nlta = 0 then .error .zeroDivision
  else
    match a with
    | [] => .ok []
    | _ :: xs => do
      let rest ← recGo (1 / (nsta : ℚ)) (1 / (nlta : ℚ)) nlta 1 0 (1 / 10 ^ 99) xs
      .ok (0 :: rest)

/-- classicSTALTA from trigger.py.  STA: sum over `nsta` shifted windows
of squared samples with a zero pad, divided by `nsta`; LTA: likewise over
`nlta` windows with a ones pad; then `sta[0:nlta] = 0` and the result is
the numpy elementwise quotient `sta / lta` (a zero denominator entry is
nan/inf, modelled `none`).  The scalar divisions by the window lengths are
exact rational divisions; numpy's nan at a zero window length is outside
every theorem's scope. -/
def classicSTALTA (a : List ℚ) (nsta nlta : ℕ) : Except PyError (List (Option ℚ)) := do
  let m := a.length
  let sta ← npSumRange
    (fun i => .ok (List.replicate nsta 0 ++
      (pySlice a i ((m : ℤ) - nsta + i)).map (· ^ 2))) nsta (List.replicate m 0)
  let sta := sta.map (· / (nsta : ℚ))
  let lta ← npSumRange
    (fun i => .ok (List.replicate nlta 1 ++
      (pySlice a i ((m : ℤ) - nlta + i)).map (· ^ 2))) nlta (List.replicate m 0)
  let lta := lta.map (· / (nlta : ℚ))
  let sta := maskFront sta nlta 0
  npDivVec sta lta

/-- carlSTATrig from trigger.py: the four-stage moving-average cascade
`eta = star - ratio * ltar - abs(sta - lta) - quiet`, with the first
`nlta` entries overwritten by the sentinel -1.0.  Both pads are zero pads;
`lta` is shifted right by one sample (`concatenate((zeros(1), lta))[:m]`). -/
def carlSTATrig (a : List ℚ) (nsta nlta : ℕ) ( ratio quiet : ℚ) :
    Except PyError (List ℚ) := do
  let m := a.length
  let sta ← npSumRange
    (fun i => .ok (List.replicate nsta 0 ++ pySlice a i ((m : ℤ) - nsta + i)))
    nsta (List.replicate m 0)
  let sta := sta.map (· / (nsta : ℚ))
  let lta ← npSumRange
    (fun i => .ok (List.replicate nlta 0 ++ pySlice sta i ((m : ℤ) - nlta + i)))
    nlta (List.replicate m 0)
  let lta := lta.map (· / (nlta : ℚ))
  let lta := ((0 : ℚ) :: lta).take m
  let star ← npSumRange
    (fun i => do
      let d ← npSub (pySlice a i ((m : ℤ) - nsta + i)) (pySlice lta i ((m : ℤ) - nsta + i))
      .ok (List.replicate nsta 0 ++ d.map (fun x => |x|)))
    nsta (List.replicate m 0)
  let star := star.map (· / (nsta : ℚ))
  let ltar ← npSumRange
    (fun i => .ok (List.replicate nlta 0 ++ pySlice star i ((m : ℤ) - nlta + i)))
    nlta (List.replicate m 0)
  let ltar := ltar.map (· / (nlta : ℚ))
  let t1 ← npSub star (ltar.map (( ratio) * ·))
  let d2 ← npSub sta lta
  let t2 ← npSub t1 (d2.map (fun x => |x|))
  let eta := t2.map (· - quiet)
  .ok (maskFront eta nlta (-1))

/-- delayedSTALTA from trigger.py: in-place loop
`sta[i] = (a[i]² + a[i-nsta]²)/nsta + sta[i-1]`,
`lta[i] = (a[i-nsta-1]² + a[i-nsta-nlta-1]²)/nlta + lta[i-1]`,
relying on Python's negative-index-from-the-end semantics (IndexError past
`-len`); then `sta[0 : nlta+nsta+50] = 0` and numpy `sta / lta`. -/
def delayedSTALTA (a : List ℚ) (nsta nlta : ℕ) : Except PyError (List (Option ℚ)) := do
  let m := a.length
  let p ← (List.range m).foldlM
    (fun (p : List ℚ × List ℚ) (i : ℕ) => do
      let ai ← pyGet a (i : ℤ)
      let a1 ← pyGet a ((i : ℤ) - nsta)
      let s1 ← pyGet p.1 ((i : ℤ) - 1)
      let sv ← pyDiv (ai ^ 2 + a1 ^ 2) (nsta : ℚ)
      let a2 ← pyGet a ((i : ℤ) - nsta - 1)
      let a3 ← pyGet a ((i : ℤ) - nsta - nlta - 1)
      let l1 ← pyGet p.2 ((i : ℤ) - 1)
      let lv ← pyDiv (a2 ^ 2 + a3 ^ 2) (nlta : ℚ)
      .ok (p.1.set i (sv + s1), p.2.set i (lv + l1)))
    (List.replicate m 0, List.replicate m 0)
  let sta := maskFront p.1 (nlta + nsta + 50) 0
  npDivVec sta p.2

/-- The moving window sum of squared samples shared by zDetect's `sta`
computation (note: trigger.py does not divide this sum by `nsta`). -/
def zSta (a : List ℚ) (nsta : ℕ) : Except PyError (List ℚ) :=
  npSumRange
    (fun i => .ok (List.replicate nsta 0 ++
      (pySlice a i ((a.length : ℤ) - nsta + i)).map (· ^ 2))) nsta
    (List.replicate a.length 0)

/-- The population variance np.std squares: mean of squared deviations of
zDetect's `sta` sequence. -/
def zVariance (a : List ℚ) (nsta : ℕ) : Except PyError ℚ := do
  let sta ← zSta a nsta
  .ok (npMean (sta.map (fun x => (x - npMean sta) ^ 2)))

/-- zDetect from trigger.py: the moving window sum of squares followed by
the global z-score `(sta - mean(sta)) / std(sta)`.  No warm-up mask and no
variance check are applied; a zero standard deviation makes every entry a
division by zero (`none`). -/
def zDetect (a : List ℚ) (nsta : ℕ) : Except PyError (List (Option ℚ)) := do
  let sta ← zSta a nsta
  let aMean := npMean sta
  let aStd := ratSqrt (npMean (sta.map (fun x => (x - aMean) ^ 2)))
  .ok (sta.map (fun x => npDiv (x - aMean) aStd))

/-- Indices (as float values) where the characteristic function strictly
exceeds a threshold: `np.where(charfct > thres)[0]`. -/
def indicesAbove (cf : List ℚ) (thr : ℚ) : List ℚ :=
  (List.range cf.length).filterMap fun i =>
    if thr < cf.getD i 0 then some (i : ℚ) else none

/-- Elements immediately preceding a gap: `ind[np.diff(ind) > 1]`. -/
def gapEnds (l : List ℚ) : List ℚ :=
  (l.zip l.tail).filterMap fun p => if 1 < p.2 - p.1 then some p.1 else none

/-- First element plus elements immediately following a gap:
`[ind[0]] + ind[np.where(np.diff(ind) > 1)[0] + 1]`. -/
def runStarts (l : List ℚ) : List ℚ :=
  match l with
  | [] => []
  | h :: _ =>
    h :: (l.zip l.tail).filterMap fun p => if 1 < p.2 - p.1 then some p.2 else none

/-- `while l[0] satisfies p: l.pop(0)`: returns the first element failing
`p` together with the list from that element on; evaluating the condition
on an exhausted list is Python's IndexError, here `none`. -/
def popWhileD (p : ℚ → Bool) : List ℚ → Option (ℚ × List ℚ)
  | [] => none
  | x :: xs => if p x then popWhileD p xs else some (x, x :: xs)

/-- The pairing while-loop of triggerOnset, fuel-indexed: `none` is a run
that crashes (IndexError) or exceeds the fuel; each iteration mirrors
`while on[-1] > of[0]` with its two inner pop loops, the max_len test and
the truncation/deletion policy. -/
def tLoop (ml : ℚ) (del : Bool) : ℕ → List ℚ → List ℚ → Option (List (ℚ × ℚ))
  | 0, _, _ => none
  | fuel + 1, onL, ofL =>
    match onL.getLast?, ofL.head? with
    | some lastOn, some of0 =>
      if of0 < lastOn then
        match popWhileD (fun x => decide (x ≤ of0)) onL with
        | none => none
        | some (on0, onP) =>
          match popWhileD (fun x => decide (x < on0)) ofL with
          | none => none
          | some (ofh, ofP) =>
            if ml < ofh - on0 then
              if del then tLoop ml del fuel onP.tail ofP
              else (tLoop ml del fuel onP ((on0 + ml) :: ofP)).map
                (fun r => (on0, on0 + ml) :: r)
            else (tLoop ml del fuel onP ofP).map (fun r => (on0, ofh) :: r)
      else some []
    | _, _ => none

/-- triggerOnset from trigger.py.  The candidate `on` list is the run
starts of `cf > thres1` (with the last start duplicated in delete mode);
the candidate `of` list is `-1`, the gap ends of `cf > thres2`, and a
final entry: the delete sentinel `1e99` in delete mode, else `ind2[-1]`
(whose read raises IndexError when `ind2` is empty). -/
def triggerOnset (cf : List ℚ) (thr1 thr2 : ℚ) (ml : ℚ) (del : Bool) (fuel : ℕ) :
    Option (List (ℚ × ℚ)) :=
  match indicesAbove cf thr1 with
  | [] => some []
  | i1 :: r1 =>
    match (if del then some ((10 : ℚ) ^ 99) else (indicesAbove cf thr2).getLast?) with
    | none => none
    | some lf =>
      tLoop ml del fuel
        (if del then runStarts (i1 :: r1) ++ [(runStarts (i1 :: r1)).getLastD 0]
         else runStarts (i1 :: r1))
        ((-1) :: (gapEnds (indicesAbove cf thr2) ++ [lf]))

/-- The spec's recurrence for the recursive short-term average:
`sta_i = c_sta * x_i^2 + (1 - c_sta) * sta_{i-1}`, `sta_0 = 0`,
with `c_sta = 1/nsta`. -/
def staSpec (a : List ℚ) (nsta : ℕ) : ℕ → ℚ
  | 0 => 0
  | i + 1 => (1 / (nsta : ℚ)) * (a.getD (i + 1) 0) ^ 2 +
      (1 - 1 / (nsta : ℚ)) * staSpec a nsta i

/-- The spec's recurrence for the recursive long-term average:
`lta_i = c_lta * x_i^2 + (1 - c_lta) * lta_{i-1}`, with `lta_0` the tiny
positive epsilon `1e-99` and `c_lta = 1/nlta`. -/
def ltaSpec (a : List ℚ) (nlta : ℕ) : ℕ → ℚ
  | 0 => 1 / 10 ^ 99
  | i + 1 => (1 / (nlta : ℚ)) * (a.getD (i + 1) 0) ^ 2 +
      (1 - 1 / (nlta : ℚ)) * ltaSpec a nlta i

section Verification

set_option maxRecDepth 40000

attribute [local semireducible] Rat.add Rat.sub Rat.mul Rat.inv

theorem popWhileD_spec (p : ℚ → Bool) :
    ∀ l x r, popWhileD p l = some (x, r) → p x = false ∧ r.head? = some x := by
  intro l
  induction l with
  | nil => intro x r h; simp [popWhileD] at h
  | cons a as ih =>
    intro x r h
    by_cases hp : p a
    · rw [popWhileD, if_pos hp] at h
      exact ih x r h
    · rw [popWhileD, if_neg hp] at h
      obtain ⟨rfl, rfl⟩ := Prod.mk.injEq .. ▸ Option.some.inj h
      exact ⟨Bool.eq_false_iff.mpr hp, rfl⟩

theorem tLoop_sound (ml : ℚ) (hml : 0 ≤ ml) (del : Bool) :
    ∀ fuel onL ofL l of0, tLoop ml del fuel onL ofL = some l →
      ofL.head? = some of0 →
      (∀ q ∈ l, of0 < q.1 ∧ q.1 ≤ q.2) ∧
      l.Pairwise (fun q r => q.1 < r.1 ∧ q.2 < r.1) := by
  intro fuel
  induction fuel with
  | zero => intro onL ofL l of0 h _; simp [tLoop] at h
  | succ n ih =>
    intro onL ofL l of0 h hhead
    cases hL : onL.getLast? with
    | none =>
      rw [tLoop, hL, hhead] at h
      dsimp only at h
      exact absurd h (by simp)
    | some lastOn =>
      rw [tLoop, hL, hhead] at h
      dsimp only at h
      by_cases hlt : of0 < lastOn
      · rw [if_pos hlt] at h
        cases hpop1 : popWhileD (fun x => decide (x ≤ of0)) onL with
        | none => rw [hpop1] at h; exact absurd h (by simp)
        | some pr1 =>
          obtain ⟨on0, onP⟩ := pr1
          rw [hpop1] at h
          dsimp only at h
          obtain ⟨hp1, hhead1⟩ := popWhileD_spec _ onL on0 onP hpop1
          have hof0on0 : of0 < on0 := lt_of_not_le (of_decide_eq_false hp1)
          cases hpop2 : popWhileD (fun x => decide (x < on0)) ofL with
          | none => rw [hpop2] at h; exact absurd h (by simp)
          | some pr2 =>
            obtain ⟨ofh, ofP⟩ := pr2
            rw [hpop2] at h
            dsimp only at h
            obtain ⟨hp2, hhead2⟩ := popWhileD_spec _ ofL ofh ofP hpop2
            have hon0ofh : on0 ≤ ofh := le_of_not_lt (of_decide_eq_false hp2)
            by_cases hbig : ml < ofh - on0
            · rw [if_pos hbig] at h
              by_cases hdel : del = true
              · rw [if_pos hdel] at h
                have H := ih onP.tail ofP l ofh h hhead2
                refine ⟨fun q hq => ⟨?_, (H.1 q hq).2⟩, H.2⟩
                exact lt_of_lt_of_le hof0on0 (le_trans hon0ofh (le_of_lt (H.1 q hq).1))
              · rw [if_neg hdel] at h
                obtain ⟨l2, hl2, rfl⟩ := Option.map_eq_some'.mp h
                have H := ih onP ((on0 + ml) :: ofP) l2 (on0 + ml) hl2 rfl
                constructor
                · intro q hq
                  rcases List.mem_cons.mp hq with rfl | hq2
                  · exact ⟨hof0on0, le_add_of_nonneg_right hml⟩
                  · refine ⟨?_, (H.1 q hq2).2⟩
                    calc of0 < on0 := hof0on0
                      _ ≤ on0 + ml := le_add_of_nonneg_right hml
                      _ < q.1 := (H.1 q hq2).1
                · rw [List.pairwise_cons]
                  refine ⟨fun q hq => ?_, H.2⟩
                  have h1 := (H.1 q hq).1
                  exact ⟨lt_of_le_of_lt (le_add_of_nonneg_right hml) h1, h1⟩
            · rw [if_neg hbig] at h
              obtain ⟨l2, hl2, rfl⟩ := Option.map_eq_some'.mp h
              have H := ih onP ofP l2 ofh hl2 hhead2
              constructor
              · intro q hq
                rcases List.mem_cons.mp hq with rfl | hq2
                · exact ⟨hof0on0, hon0ofh⟩
                · refine ⟨?_, (H.1 q hq2).2⟩
                  calc of0 < on0 := hof0on0
                    _ ≤ ofh := hon0ofh
                    _ < q.1 := (H.1 q hq2).1
              · rw [List.pairwise_cons]
                refine ⟨fun q hq => ?_, H.2⟩
                have h1 := (H.1 q hq).1
                exact ⟨lt_of_le_of_lt hon0ofh h1, h1⟩
      · rw [if_neg hlt] at h
        obtain rfl := Option.some.inj h
        simp

/-- C2: every interval list the onset detector returns (for a nonnegative
`max_len`) is emitted in strictly increasing on-index order, each interval
has `on_index ≤ off_index`, and no two intervals overlap (each later
interval starts strictly after the earlier ones end). -/
theorem claim2_intervals_ordered_disjoint (cf : List ℚ) (thr1 thr2 ml : ℚ)
    (del : Bool) (fuel : ℕ) (l : List (ℚ × ℚ)) (hml : 0 ≤ ml)
    (h : triggerOnset cf thr1 thr2 ml del fuel = some l) :
    (∀ q ∈ l, q.1 ≤ q.2) ∧
    l.Pairwise (fun q r => q.1 < r.1 ∧ q.2 < r.1) := by
  rw [triggerOnset] at h
  split at h
  · obtain rfl : ([] : List (ℚ × ℚ)) = l := Option.some.inj h
    simp
  · split at h
    · exact absurd h (by simp)
    · have H := tLoop_sound ml hml del fuel _ _ l (-1) h rfl
      exact ⟨fun q hq => (H.1 q hq).2, H.2⟩

/-- C2 witness: the spec's own example `[0,0,5,5,5,0,0]` with thresholds
3/1 yields the single interval `(2,4)`, to which the theorem applies. -/
theorem claim2_witness : ((2 : ℚ), (4 : ℚ)).1 ≤ ((2 : ℚ), (4 : ℚ)).2 := by
  have H := claim2_intervals_ordered_disjoint [0, 0, 5, 5, 5, 0, 0] 3 1
    (9 * 10 ^ 99) false 100 [(2, 4)] (by norm_num) (by rfl)
  exact H.1 (2, 4) (by simp)

/-- C4: when the paired off-candidate lies more than `max_len` after the
on-candidate and `max_len_delete` is false, the loop emits the truncated
interval `(on, on + max_len)` (same on-index, forced early close) and the
scan continues with the remaining candidates, so a later re-crossing of
`thr_on` can open a fresh interval.  On the concrete event that would
naturally span 5 samples, `max_len = 1` yields the length-1 interval
`(1,2)` from the same on-index; with a re-crossing at index 5 a second
interval is opened. -/
theorem claim4_truncation :
    (∀ (ml : ℚ) (onL ofL : List ℚ) (fuel : ℕ) (lastOn of0 on0 ofh : ℚ)
        (onP ofP : List ℚ),
        onL.getLast? = some lastOn → ofL.head? = some of0 → of0 < lastOn →
        popWhileD (fun x => decide (x ≤ of0)) onL = some (on0, onP) →
        popWhileD (fun x => decide (x < on0)) ofL = some (ofh, ofP) →
        ml < ofh - on0 →
        tLoop ml false (fuel + 1) onL ofL =
          (tLoop ml false fuel onP ((on0 + ml) :: ofP)).map
            (fun r => (on0, on0 + ml) :: r)) ∧
    triggerOnset [0, 5, 5, 5, 5, 5, 0] 3 1 1 false 100 = some [(1, 2)] ∧
    triggerOnset [0, 5, 5, 5, 0, 5, 0] 3 1 1 false 100 = some [(1, 2), (5, 5)] := by
  refine ⟨?_, by rfl, by rfl⟩
  intro ml onL ofL fuel lastOn of0 on0 ofh onP ofP h1 h2 h3 h4 h5 h6
  rw [tLoop, h1, h2]
  dsimp only
  rw [if_pos h3, h4]
  dsimp only
  rw [h5]
  dsimp only
  rw [if_pos h6, if_neg (by simp)]

/-- C4 witness: the truncation step applied to the concrete loop state
reached on the 5-sample event with `max_len = 1`. -/
theorem claim4_witness :
    tLoop 1 false 100 [1] [-1, 5] =
      (tLoop 1 false 99 [1] [2, 5]).map (fun r => ((1 : ℚ), (2 : ℚ)) :: r) :=
  claim4_truncation.1 1 [1] [-1, 5] 99 1 (-1) 1 5 [1] [5]
    (by rfl) (by rfl) (by norm_num) (by rfl) (by rfl) (by norm_num)

/-- C5: if no element of the characteristic function strictly exceeds
`thr_on`, the onset detector returns the empty sequence immediately, with
no error, for every `thr_off`, `max_len`, `max_len_delete` and fuel. -/
theorem claim5_empty_when_never_above (cf : List ℚ) (thr1 thr2 ml : ℚ)
    (del : Bool) (fuel : ℕ) (h : ∀ x ∈ cf, ¬ thr1 < x) :
    triggerOnset cf thr1 thr2 ml del fuel = some [] := by
  have hind : indicesAbove cf thr1 = [] := by
    rw [indicesAbove, List.filterMap_eq_nil_iff]
    intro i hi
    have hlt := List.mem_range.mp hi
    have hm : cf.getD i 0 ∈ cf := by
      rw [List.getD_eq_getElem _ _ hlt]; exact List.getElem_mem hlt
    rw [if_neg (h _ hm)]
  rw [triggerOnset, hind]

/-- C5 witness: a characteristic function never exceeding the threshold. -/
theorem claim5_witness : triggerOnset [0, 1, 2] 3 1 5 false 7 = some [] :=
  claim5_empty_when_never_above [0, 1, 2] 3 1 5 false 7
    (by intro x hx; fin_cases hx <;> norm_num)

/-- C10 counterexample: with `max_len_delete = true` and the default
`max_len = 9e99`, the event of the last run (on-index 1, naturally ending
at index 2, well before end-of-trace, duration 1) is NOT absent: it is
emitted as `(1, 1e99)` with the sentinel as off-index, because
`1e99 - 1 > 9e99` fails. -/
theorem claim10_counterexample :
    triggerOnset [0, 5, 5, 0, 0] 3 1 (9 * 10 ^ 99) true 100 =
      some [(1, 10 ^ 99)] := by rfl

/-- C10 (amended): with `max_len_delete = true` the final synthetic
off-candidate is the sentinel `1e99`, so the last-run event is deleted
exactly when `1e99 - on > max_len`: with `max_len = 10` the event `(1,2)`
(which ended before end-of-trace with duration `1 ≤ max_len`, as the
`max_len_delete = false` run shows) is absent from the output, while with
the default `max_len = 9e99` it is emitted as `(1, 1e99)`. -/
theorem claim10_delete_sentinel :
    triggerOnset [0, 5, 5, 0, 0] 3 1 10 true 100 = some [] ∧
    triggerOnset [0, 5, 5, 0, 0] 3 1 10 false 100 = some [(1, 2)] ∧
    triggerOnset [0, 5, 5, 0, 0] 3 1 (9 * 10 ^ 99) true 100 =
      some [(1, 10 ^ 99)] :=
  ⟨by rfl, by rfl, by rfl⟩

/-- C1 counterexample: `recSTALTAPy` with `nsta = len(samples) = 3`
(violating `nsta < len(samples)`) does not fail with any error, let alone
`InvalidWindowError`: it returns a full characteristic function. -/
theorem claim1_counterexample :
    3 ≤ [(0 : ℚ), 0, 0].length ∧ recSTALTAPy [0, 0, 0] 3 2 = .ok [0, 0, 0] :=
  ⟨by norm_num, by rfl⟩

/-- C3 counterexample: with `nsta = nlta = 1` (both `≥ 1`) on the zero
input `[0,0]`, the recurrence gives `lta = 0` at index 1 and Python's
`sta / lta` raises ZeroDivisionError, so no characteristic function with
the claimed values is computed. -/
theorem claim3_counterexample :
    recSTALTAPy [0, 0] 1 1 = .error .zeroDivision := by rfl

/-- C6 counterexample: `classicSTALTA` on the constant-zero input of
length 5 with `nsta = 1 < nlta = 2 < 5` is not zero everywhere: every
index `≥ nlta` is the non-finite `0/0` (numpy nan), modelled `none`. -/
theorem claim6_counterexample :
    classicSTALTA [0, 0, 0, 0, 0] 1 2 =
      .ok [some 0, some 0, none, none, none] := by rfl

/-- C7 counterexample: the Z-detector applies no warm-up mask: on
`[0,0,0,5,0]` with `nsta = 1` the leading entry is `-1/2`, neither the
zero of the claimed forced prefix nor the Carl sentinel `-1.0`. -/
theorem claim7_counterexample :
    zDetect [0, 0, 0, 5, 0] 1 =
      .ok [some (-(1 : ℚ) / 2), some (-(1 : ℚ) / 2), some (-(1 : ℚ) / 2),
        some (-(1 : ℚ) / 2), some 2] ∧
    (-(1 : ℚ) / 2 ≠ 0 ∧ -(1 : ℚ) / 2 ≠ -1) :=
  ⟨by rfl, by norm_num⟩

/-- C8 counterexample: on a flat (all-zero) signal the computed variance
of the Z-detector's `sta` sequence is 0, yet `zDetect` raises nothing: it
returns normally with every entry a division by zero (numpy nan),
contradicting the claimed `DegenerateStatisticsError`. -/
theorem claim8_counterexample :
    zVariance [0, 0, 0, 0] 2 = .ok 0 ∧
    zDetect [0, 0, 0, 0] 2 = .ok [none, none, none, none] :=
  ⟨by rfl, by rfl⟩

theorem exceptBind_ok {α β : Type} (x : Except PyError α)
    (f : α → Except PyError β) (b : β) (h : x >>= f = .ok b) :
    ∃ a, x = .ok a ∧ f a = .ok b := by
  cases x with
  | error e => exact absurd h (by simp [Bind.bind, Except.bind])
  | ok a => exact ⟨a, rfl, h⟩

theorem recGo_ok (csta clta : ℚ) (nlta : ℕ) (_hc : 0 ≤ csta) (h0 : 0 < clta)
    (h1 : clta < 1) :
    ∀ (xs : List ℚ) (i : ℕ) (sta lta : ℚ), 0 < lta →
      ∃ l, recGo csta clta nlta i sta lta xs = .ok l ∧ l.length = xs.length := by
  intro xs
  induction xs with
  | nil => intro i sta lta _; exact ⟨[], rfl, rfl⟩
  | cons x xs ih =>
    intro i sta lta hlta
    have hlta2 : 0 < clta * x ^ 2 + (1 - clta) * lta :=
      add_pos_of_nonneg_of_pos (mul_nonneg (le_of_lt h0) (sq_nonneg x))
        (mul_pos (by linarith) hlta)
    obtain ⟨l, hl, hlen⟩ := ih (i + 1) (csta * x ^ 2 + (1 - csta) * sta) _ hlta2
    refine ⟨(if i < nlta then 0 else (csta * x ^ 2 + (1 - csta) * sta) /
      (clta * x ^ 2 + (1 - clta) * lta)) :: l, ?_, by simp [hlen]⟩
    rw [recGo]
    rw [if_neg (ne_of_gt hlta2), hl]
    rfl

/-- C1 (amended): no characteristic-function variant validates the window
parameters; in particular `recSTALTAPy` returns a full-length CF with no
error for every input and all `nsta ≥ 1`, `nlta ≥ 2`, even when `nsta` or
`nlta` reaches or exceeds the sample count (and a zero window produces a
ZeroDivisionError, not an InvalidWindowError). -/
theorem claim1_no_window_check (a : List ℚ) (nsta nlta : ℕ)
    (h1 : 1 ≤ nsta) (h2 : 2 ≤ nlta) :
    ∃ l, recSTALTAPy a nsta nlta = .ok l ∧ l.length = a.length := by
  have hcond : ¬(nsta = 0 ∨ nlta = 0) := by omega
  rw [recSTALTAPy.eq_def, if_neg hcond]
  cases a with
  | nil => exact ⟨[], rfl, rfl⟩
  | cons x xs =>
    dsimp only
    have hnl : (0 : ℚ) < (nlta : ℚ) := by
      exact_mod_cast Nat.lt_of_lt_of_le Nat.zero_lt_two h2
    have hlt1 : (1 : ℚ) / nlta < 1 := by
      rw [div_lt_one hnl]
      exact_mod_cast Nat.lt_of_lt_of_le Nat.one_lt_two h2
    obtain ⟨l, hl, hlen⟩ := recGo_ok (1 / (nsta : ℚ)) (1 / (nlta : ℚ)) nlta
      (by positivity) (one_div_pos.mpr hnl) hlt1 xs 1 0 (1 / 10 ^ 99)
      (by positivity)
    refine ⟨0 :: l, ?_, by simp [hlen]⟩
    rw [hl]
    rfl

/-- C1 witness: window lengths 3 and 4 on a 3-sample trace (violating the
claimed precondition) still produce a characteristic function. -/
theorem claim1_witness : (recSTALTAPy [0, 0, 0] 3 4).toOption.isSome = true := by
  obtain ⟨l, hl, hlen⟩ := claim1_no_window_check [0, 0, 0] 3 4
    (by norm_num) (by norm_num)
  rw [hl]
  rfl

theorem ltaSpec_pos (a : List ℚ) (nlta : ℕ) (h2 : 2 ≤ nlta) :
    ∀ i, 0 < ltaSpec a nlta i := by
  have hnl : (0 : ℚ) < (nlta : ℚ) := by
    exact_mod_cast Nat.lt_of_lt_of_le Nat.zero_lt_two h2
  have hlt1 : (1 : ℚ) / nlta < 1 := by
    rw [div_lt_one hnl]
    exact_mod_cast Nat.lt_of_lt_of_le Nat.one_lt_two h2
  have h0 : (0 : ℚ) < 1 / nlta := one_div_pos.mpr hnl
  intro i
  induction i with
  | zero => rw [ltaSpec]; positivity
  | succ n ih =>
    rw [ltaSpec]
    exact add_pos_of_nonneg_of_pos (mul_nonneg (le_of_lt h0) (sq_nonneg _))
      (mul_pos (by linarith) ih)

theorem recGo_spec (a : List ℚ) (nsta nlta : ℕ) (h2 : 2 ≤ nlta) :
    ∀ (xs : List ℚ) (i : ℕ), 1 ≤ i → xs = a.drop i →
      ∃ l, recGo (1 / (nsta : ℚ)) (1 / (nlta : ℚ)) nlta i
          (staSpec a nsta (i - 1)) (ltaSpec a nlta (i - 1)) xs = .ok l ∧
        l.length = xs.length ∧
        ∀ k, k < xs.length → l.getD k 0 = if i + k < nlta then 0
          else staSpec a nsta (i + k) / ltaSpec a nlta (i + k) := by
  intro xs
  induction xs with
  | nil =>
    intro i _ _
    exact ⟨[], rfl, rfl, by intro k hk; simp at hk⟩
  | cons x xs ih =>
    intro i hi hdrop
    have hi_lt : i < a.length := by
      by_contra hcon
      rw [List.drop_eq_nil_of_le (by omega)] at hdrop
      exact List.cons_ne_nil x xs hdrop
    rw [List.drop_eq_getElem_cons hi_lt] at hdrop
    obtain ⟨hx, hxs⟩ : x = a[i] ∧ xs = a.drop (i + 1) := List.cons.inj hdrop
    have hsta : (1 / (nsta : ℚ)) * x ^ 2 +
        (1 - 1 / (nsta : ℚ)) * staSpec a nsta (i - 1) = staSpec a nsta i := by
      conv_rhs => rw [show i = (i - 1) + 1 by omega]
      rw [staSpec, show (i - 1) + 1 = i by omega,
        List.getD_eq_getElem a 0 hi_lt, hx]
    have hlta : (1 / (nlta : ℚ)) * x ^ 2 +
        (1 - 1 / (nlta : ℚ)) * ltaSpec a nlta (i - 1) = ltaSpec a nlta i := by
      conv_rhs => rw [show i = (i - 1) + 1 by omega]
      rw [ltaSpec, show (i - 1) + 1 = i by omega,
        List.getD_eq_getElem a 0 hi_lt, hx]
    obtain ⟨l, hl, hlen, hval⟩ := ih (i + 1) (by omega) hxs
    refine ⟨(if i < nlta then 0 else staSpec a nsta i / ltaSpec a nlta i) :: l,
      ?_, by simp [hlen], ?_⟩
    · have hl2 : recGo (1 / (nsta : ℚ)) (1 / (nlta : ℚ)) nlta (i + 1)
          (staSpec a nsta i) (ltaSpec a nlta i) xs = .ok l := hl
      rw [recGo]
      rw [hsta, hlta, if_neg (ne_of_gt (ltaSpec_pos a nlta h2 i)), hl2]
      rfl
    · intro k hk
      cases k with
      | zero => simp [List.getD_cons_zero]
      | succ k2 =>
        rw [List.getD_cons_succ]
        have hk2 : k2 < xs.length := by simpa using hk
        rw [hval k2 hk2, show i + 1 + k2 = i + (k2 + 1) by omega]

/-- C3 (amended): for every input and all `nsta ≥ 1`, `nlta ≥ 2` (with
`nlta = 1` the recurrence reaches `lta = 0` on zero samples and Python
raises ZeroDivisionError, see the counterexample), the recursive STA/LTA
returns a CF with `CF[0] = 0` and, for `1 ≤ i < N`,
`CF[i] = sta_i / lta_i` for the spec's exponential recurrences, with every
index `i < nlta` forced to 0 after the recurrence. -/
theorem claim3_recursive_recurrence (a : List ℚ) (nsta nlta : ℕ)
    (h1 : 1 ≤ nsta) (h2 : 2 ≤ nlta) :
    ∃ l, recSTALTAPy a nsta nlta = .ok l ∧ l.length = a.length ∧
      l.getD 0 0 = 0 ∧
      ∀ i, 1 ≤ i → i < a.length →
        l.getD i 0 = if i < nlta then 0
          else staSpec a nsta i / ltaSpec a nlta i := by
  have hcond : ¬(nsta = 0 ∨ nlta = 0) := by omega
  rw [recSTALTAPy.eq_def, if_neg hcond]
  cases a with
  | nil =>
    refine ⟨[], rfl, rfl, rfl, ?_⟩
    intro i hi1 hi2
    exact absurd hi2 (by simp)
  | cons x xs =>
    dsimp only
    obtain ⟨l, hl, hlen, hval⟩ :=
      recGo_spec (x :: xs) nsta nlta h2 xs 1 (le_refl 1) (by simp)
    have hl2 : recGo (1 / (nsta : ℚ)) (1 / (nlta : ℚ)) nlta 1 0
        (1 / 10 ^ 99) xs = .ok l := hl
    refine ⟨0 :: l, ?_, by simp [hlen], rfl, ?_⟩
    · rw [hl2]
      rfl
    · intro i hi1 hi2
      rw [show i = (i - 1) + 1 by omega, List.getD_cons_succ]
      have hlt : i - 1 < xs.length := by
        simp at hi2
        omega
      rw [hval (i - 1) hlt, show 1 + (i - 1) = i by omega,
        show i - 1 + 1 = i by omega]

/-- C3 witness: the amended recurrence characterisation applied at index
2 of a 3-sample zero trace with `nsta = 1`, `nlta = 2`. -/
theorem claim3_witness :
    ([(0 : ℚ), 0, 0] : List ℚ).getD 2 0 =
      if 2 < 2 then 0 else staSpec [0, 0, 0] 1 2 / ltaSpec [0, 0, 0] 2 2 := by
  obtain ⟨l, hl, hlen, h0, hv⟩ := claim3_recursive_recurrence [0, 0, 0] 1 2
    (by norm_num) (by norm_num)
  have hcalc : recSTALTAPy [0, 0, 0] 1 2 = .ok [0, 0, 0] := by rfl
  rw [hl] at hcalc
  obtain rfl := Except.ok.inj hcalc
  exact hv 2 (by norm_num) (by norm_num)

theorem exceptBindOk {α β : Type} (a : α) (f : α → Except PyError β) :
    (Except.ok a >>= f) = f a := rfl

theorem exceptPureOk {α : Type} (a : α) : (pure a : Except PyError α) = .ok a := rfl

theorem getD_replicate_lt (n j : ℕ) (c d : ℚ) (h : j < n) :
    (List.replicate n c).getD j d = c := by
  rw [List.getD_eq_getElem _ _ (by simpa using h), List.getElem_replicate]

theorem zipWith_getD {α β γ : Type} (f : α → β → γ) (dx : α) (dy : β) (dz : γ) :
    ∀ (x : List α) (y : List β) (j : ℕ), j < x.length → j < y.length →
      (List.zipWith f x y).getD j dz = f (x.getD j dx) (y.getD j dy) := by
  intro x
  induction x with
  | nil => intro y j h _; exact absurd h (by simp)
  | cons a as ih =>
    intro y j hx hy
    cases y with
    | nil => exact absurd hy (by simp)
    | cons b bs =>
      cases j with
      | zero => rfl
      | succ j2 =>
        rw [List.zipWith_cons_cons, List.getD_cons_succ, List.getD_cons_succ,
          List.getD_cons_succ]
        exact ih bs j2 (by simpa using hx) (by simpa using hy)

theorem maskFront_length (l : List ℚ) (n : ℕ) (v : ℚ) :
    (maskFront l n v).length = l.length := by
  simp [maskFront]
  omega

theorem maskFront_getD_lt (l : List ℚ) (n : ℕ) (v : ℚ) (j : ℕ) (d : ℚ)
    (h : j < min n l.length) : (maskFront l n v).getD j d = v := by
  rw [maskFront, List.getD_append _ _ _ _ (by simpa using h),
    getD_replicate_lt _ _ _ _ h]

theorem maskFront_getD_ge (l : List ℚ) (n : ℕ) (v : ℚ) (j : ℕ) (d : ℚ)
    (hn : n ≤ j) : (maskFront l n v).getD j d = l.getD j d := by
  by_cases hj : j < l.length
  · have hmin : (List.replicate (min n l.length) v).length ≤ j := by simp; omega
    rw [maskFront, List.getD_append_right _ _ _ _ hmin]
    have hm2 : min n l.length = n := min_eq_left (by omega)
    rw [List.length_replicate, hm2, List.getD_eq_getElem _ _ (by simp; omega),
      List.getD_eq_getElem _ _ hj]
    rw [List.getElem_drop]
    congr 1
    omega
  · rw [List.getD_eq_default _ _ (by rw [maskFront_length]; omega),
      List.getD_eq_default _ _ (by omega)]

theorem pySlice_win_length (l : List ℚ) (k i : ℕ) (hk : k ≤ l.length)
    (hi : i ≤ k) :
    (pySlice l i ((l.length : ℤ) - k + i)).length = l.length - k := by
  simp only [pySlice, List.length_drop, List.length_take]
  rw [if_neg (by omega)]
  omega

theorem pySlice_mem (l : List ℚ) (s : ℕ) (e : ℤ) (x : ℚ)
    (h : x ∈ pySlice l s e) : x ∈ l := by
  simp only [pySlice] at h
  exact List.mem_of_mem_take (List.mem_of_mem_drop h)

theorem getD_zero_of_mem (l : List ℚ) (h : ∀ x ∈ l, x = 0) (j : ℕ) :
    l.getD j 0 = 0 := by
  by_cases hj : j < l.length
  · rw [List.getD_eq_getElem _ _ hj]
    exact h _ (List.getElem_mem hj)
  · exact List.getD_eq_default _ _ (by omega)

theorem eq_replicate_zero_of (l : List ℚ) (N : ℕ) (hlen : l.length = N)
    (h : ∀ j, j < N → l.getD j 0 = 0) : l = List.replicate N 0 := by
  apply List.ext_getElem (by simp [hlen])
  intro i h1 h2
  rw [List.getElem_replicate, ← List.getD_eq_getElem l 0 h1]
  exact h i (by omega)

theorem npSumRange_spec (f : ℕ → Except PyError (List ℚ)) (t : ℕ → List ℚ)
    (init : List ℚ) :
    ∀ n, (∀ i, i < n → f i = .ok (t i) ∧ (t i).length = init.length) →
      ∃ r, npSumRange f n init = .ok r ∧ r.length = init.length ∧
        ∀ j, j < init.length →
          r.getD j 0 = init.getD j 0 + ∑ i ∈ Finset.range n, (t i).getD j 0 := by
  intro n
  induction n with
  | zero =>
    intro _
    exact ⟨init, rfl, rfl, by intro j hj; simp⟩
  | succ n ih =>
    intro hf
    obtain ⟨r, hr, hrlen, hrval⟩ := ih (fun i hi => hf i (by omega))
    have hfn := hf n (by omega)
    refine ⟨List.zipWith (· + ·) r (t n), ?_, ?_, ?_⟩
    · rw [npSumRange, List.range_succ, List.foldlM_append]
      have hr2 : (List.range n).foldlM (fun acc i => do npAdd acc (← f i))
          init = Except.ok r := hr
      rw [hr2, exceptBindOk, List.foldlM_cons, hfn.1, exceptBindOk]
      rw [npAdd, if_pos (by rw [hrlen, hfn.2])]
      rw [exceptBindOk, List.foldlM_nil]
      rfl
    · simp [hrlen, hfn.2]
    · intro j hj
      rw [zipWith_getD _ 0 0 0 r (t n) j (by omega) (by rw [hfn.2]; omega)]
      rw [hrval j hj, Finset.sum_range_succ, add_assoc]

theorem getD_map_q (f : ℚ → ℚ) (l : List ℚ) (j : ℕ) (hj : j < l.length)
    (d d2 : ℚ) : (l.map f).getD j d = f (l.getD j d2) := by
  rw [List.getD_eq_getElem _ _ (by simpa using hj), List.getElem_map,
    List.getD_eq_getElem _ _ hj]

theorem recGo_zero (csta clta : ℚ) (nlta : ℕ) (hclta : 1 - clta ≠ 0) :
    ∀ (k i : ℕ) (lta : ℚ), lta ≠ 0 →
      recGo csta clta nlta i 0 lta (List.replicate k 0) =
        .ok (List.replicate k 0) := by
  intro k
  induction k with
  | zero => intro i lta _; rfl
  | succ k2 ih =>
    intro i lta hlta
    rw [List.replicate_succ, recGo]
    have hlta2 : clta * (0 : ℚ) ^ 2 + (1 - clta) * lta ≠ 0 := by
      have he : clta * (0 : ℚ) ^ 2 + (1 - clta) * lta = (1 - clta) * lta := by
        ring
      rw [he]
      exact mul_ne_zero hclta hlta
    have hsta0 : csta * (0 : ℚ) ^ 2 + (1 - csta) * 0 = 0 := by ring
    rw [if_neg hlta2, hsta0, ih (i + 1) _ hlta2, exceptBindOk]
    simp [zero_div, List.replicate_succ]

/-- Success and warm-up characterisation of classicSTALTA: for window
lengths between 1 and the trace length it returns a CF of input length
whose first `nlta` entries are exactly 0 (the ones padding keeps the LTA
denominator at 1 there); on an all-zero input every entry from `nlta` on
is a 0/0 division, i.e. NaN (`none`). -/
theorem classic_spec (a : List ℚ) (nsta nlta : ℕ) (_h1 : 1 ≤ nsta)
    (h2 : 1 ≤ nlta) (h3 : nsta ≤ a.length) (h4 : nlta ≤ a.length) :
    ∃ l, classicSTALTA a nsta nlta = .ok l ∧ l.length = a.length ∧
      (∀ j, j < nlta → l.getD j none = some 0) ∧
      ((∀ x ∈ a, x = 0) → ∀ j, nlta ≤ j → j < a.length →
        l.getD j none = none) := by
  obtain ⟨s0, hs0, hs0len, hs0val⟩ := npSumRange_spec
    (fun i => .ok (List.replicate nsta 0 ++
      (pySlice a i ((a.length : ℤ) - nsta + i)).map (· ^ 2)))
    (fun i => List.replicate nsta 0 ++
      (pySlice a i ((a.length : ℤ) - nsta + i)).map (· ^ 2))
    (List.replicate a.length 0) nsta
    (by
      intro i hi
      refine ⟨rfl, ?_⟩
      simp [pySlice_win_length a nsta i h3 (by omega)]
      omega)
  obtain ⟨l0, hl0, hl0len, hl0val⟩ := npSumRange_spec
    (fun i => .ok (List.replicate nlta 1 ++
      (pySlice a i ((a.length : ℤ) - nlta + i)).map (· ^ 2)))
    (fun i => List.replicate nlta 1 ++
      (pySlice a i ((a.length : ℤ) - nlta + i)).map (· ^ 2))
    (List.replicate a.length 0) nlta
    (by
      intro i hi
      refine ⟨rfl, ?_⟩
      simp [pySlice_win_length a nlta i h4 (by omega)]
      omega)
  rw [List.length_replicate] at hs0len hl0len
  have hlenmask : (maskFront (s0.map (· / (nsta : ℚ))) nlta 0).length = a.length := by
    rw [maskFront_length, List.length_map, hs0len]
  have hlenl0m : (l0.map (· / (nlta : ℚ))).length = a.length := by
    rw [List.length_map, hl0len]
  refine ⟨List.zipWith npDiv (maskFront (s0.map (· / (nsta : ℚ))) nlta 0)
    (l0.map (· / (nlta : ℚ))), ?_, ?_, ?_, ?_⟩
  · rw [classicSTALTA]
    rw [hs0, exceptBindOk, hl0, exceptBindOk]
    rw [npDivVec, if_pos (by rw [hlenmask, hlenl0m])]
  · simp [hlenmask, hlenl0m]
  · intro j hj
    have hja : j < a.length := by omega
    rw [zipWith_getD npDiv 0 0 none _ _ j (by omega) (by omega)]
    rw [maskFront_getD_lt _ _ _ _ _ (by rw [List.length_map, hs0len]; omega)]
    rw [getD_map_q _ _ _ (by omega) _ 0]
    rw [hl0val j (by simpa using hja)]
    have hterm : ∀ i ∈ Finset.range nlta,
        (List.replicate nlta 1 ++
          (pySlice a i ((a.length : ℤ) - nlta + i)).map (· ^ 2)).getD j 0 =
          (1 : ℚ) := by
      intro i _
      rw [List.getD_append _ _ _ _ (by simpa using hj),
        getD_replicate_lt _ _ _ _ hj]
    rw [Finset.sum_congr rfl hterm, getD_replicate_lt _ _ _ _ hja]
    have hnl0 : ((nlta : ℚ)) ≠ 0 := by
      exact_mod_cast by omega
    rw [npDiv, if_neg (by
      simp only [Finset.sum_const, Finset.card_range, nsmul_eq_mul, mul_one,
        zero_add]
      exact div_ne_zero hnl0 hnl0)]
    simp
  · intro hza j hjn hja
    rw [zipWith_getD npDiv 0 0 none _ _ j (by omega) (by omega)]
    rw [getD_map_q _ _ _ (by omega) _ 0]
    rw [hl0val j (by simpa using hja)]
    have hterm : ∀ i ∈ Finset.range nlta,
        (List.replicate nlta 1 ++
          (pySlice a i ((a.length : ℤ) - nlta + i)).map (· ^ 2)).getD j 0 =
          (0 : ℚ) := by
      intro i _
      rw [List.getD_append_right _ _ _ _ (by simp; omega)]
      apply getD_zero_of_mem
      intro x hx
      obtain ⟨y, hy, rfl⟩ := List.mem_map.mp hx
      rw [hza y (pySlice_mem _ _ _ _ hy)]
      norm_num
    rw [Finset.sum_congr rfl hterm, getD_replicate_lt _ _ _ _ hja]
    simp [npDiv]

/-- On an all-zero input, zDetect's moving sum of squares is identically
zero. -/
theorem zSta_spec (a : List ℚ) (nsta : ℕ) (h3 : nsta ≤ a.length)
    (hza : ∀ x ∈ a, x = 0) :
    zSta a nsta = .ok (List.replicate a.length 0) := by
  obtain ⟨r, hr, hrlen, hrval⟩ := npSumRange_spec
    (fun i => .ok (List.replicate nsta 0 ++
      (pySlice a i ((a.length : ℤ) - nsta + i)).map (· ^ 2)))
    (fun i => List.replicate nsta 0 ++
      (pySlice a i ((a.length : ℤ) - nsta + i)).map (· ^ 2))
    (List.replicate a.length 0) nsta
    (by
      intro i hi
      refine ⟨rfl, ?_⟩
      simp [pySlice_win_length a nsta i h3 (by omega)]
      omega)
  rw [List.length_replicate] at hrlen
  rw [zSta, hr]
  congr 1
  apply eq_replicate_zero_of r a.length hrlen
  intro j hj
  rw [hrval j (by simpa using hj), getD_replicate_lt _ _ _ _ hj]
  rw [Finset.sum_eq_zero, add_zero]
  intro i _
  apply getD_zero_of_mem
  intro x hx
  rcases List.mem_append.mp hx with hx2 | hx2
  · exact List.eq_of_mem_replicate hx2
  · obtain ⟨y, hy, rfl⟩ := List.mem_map.mp hx2
    rw [hza y (pySlice_mem _ _ _ _ hy)]
    norm_num

/-- C6 (amended): on a constant-zero input with `0 < nsta < nlta < N`,
the recursive STA/LTA is zero at every index (no NaN), but the classic
STA/LTA is zero only on the first `nlta` indices: every index `≥ nlta`
is the division `0 / 0` (numpy NaN, modelled `none`), because beyond the
ones padding the LTA window of an all-zero trace sums to zero. -/
theorem claim6_zero_input (N nsta nlta : ℕ) (h1 : 0 < nsta) (h2 : nsta < nlta)
    (h3 : nlta < N) :
    recSTALTAPy (List.replicate N 0) nsta nlta = .ok (List.replicate N 0) ∧
    ∃ l, classicSTALTA (List.replicate N 0) nsta nlta = .ok l ∧
      l.length = N ∧
      ∀ j, j < N → l.getD j none = if j < nlta then some 0 else none := by
  constructor
  · rw [recSTALTAPy.eq_def, if_neg (by omega)]
    cases N with
    | zero => rfl
    | succ n =>
      rw [List.replicate_succ]
      dsimp only
      have hnl : (0 : ℚ) < (nlta : ℚ) := by
        exact_mod_cast by omega
      have hclta : (1 : ℚ) - 1 / nlta ≠ 0 := by
        have hlt : (1 : ℚ) / nlta < 1 := by
          rw [div_lt_one hnl]
          exact_mod_cast by omega
        linarith
      rw [recGo_zero (1 / (nsta : ℚ)) (1 / (nlta : ℚ)) nlta hclta n 1
        (1 / 10 ^ 99) (by positivity), exceptBindOk]
  · obtain ⟨l, hl, hlen, hpre, htail⟩ := classic_spec (List.replicate N 0)
      nsta nlta (by omega) (by omega) (by simp; omega) (by simp; omega)
    refine ⟨l, hl, by simpa using hlen, ?_⟩
    intro j hj
    by_cases hjn : j < nlta
    · rw [if_pos hjn]
      exact hpre j hjn
    · rw [if_neg hjn]
      exact htail (fun x hx => List.eq_of_mem_replicate hx) j (by omega)
        (by simp; omega)

/-- C6 witness: the amended characterisation at `N = 5`, `nsta = 1`,
`nlta = 2`: the recursive CF is all zeros and the classic CF has NaN at
index 4. -/
theorem claim6_witness :
    recSTALTAPy (List.replicate 5 0) 1 2 = .ok (List.replicate 5 0) ∧
    ([some 0, some 0, none, none, none] : List (Option ℚ)).getD 4 none =
      none := by
  have H := claim6_zero_input 5 1 2 (by norm_num) (by norm_num) (by norm_num)
  refine ⟨H.1, ?_⟩
  obtain ⟨l, hl, hlen, hv⟩ := H.2
  have hconc : classicSTALTA (List.replicate 5 0) 1 2 =
      .ok [some 0, some 0, none, none, none] := by rfl
  rw [hl] at hconc
  obtain rfl := Except.ok.inj hconc
  have h4 := hv 4 (by omega)
  rw [if_neg (by omega)] at h4
  exact h4

/-- C8 (amended): zDetect performs no degenerate-statistics check: on a
flat (all-zero) signal the computed variance of its `sta` sequence is 0
and the function returns normally with every entry a division by zero
(numpy NaN, modelled `none`) instead of failing with any error. -/
theorem claim8_no_variance_check (N nsta : ℕ) (_h1 : 0 < nsta)
    (h2 : nsta ≤ N) :
    zVariance (List.replicate N 0) nsta = .ok 0 ∧
    zDetect (List.replicate N 0) nsta = .ok (List.replicate N none) := by
  have hz := zSta_spec (List.replicate N 0) nsta (by simpa using h2)
    (fun x hx => List.eq_of_mem_replicate hx)
  rw [List.length_replicate] at hz
  have hmean : npMean (List.replicate N (0 : ℚ)) = 0 := by
    simp [npMean, List.sum_replicate]
  have hvar : ((List.replicate N (0 : ℚ)).map fun x => (x - 0) ^ 2) =
      List.replicate N 0 := by
    simp [List.map_replicate]
  constructor
  · simp only [zVariance, hz, exceptBindOk]
    rw [hmean, hvar, hmean]
  · simp only [zDetect, hz, exceptBindOk]
    rw [hmean, hvar, hmean]
    have hsq : ratSqrt 0 = 0 := by rfl
    rw [hsq]
    simp [List.map_replicate, npDiv]

/-- C8 witness: the amended statement at a flat 4-sample trace with
`nsta = 2`. -/
theorem claim8_witness :
    zVariance (List.replicate 4 0) 2 = .ok 0 ∧
    zDetect (List.replicate 4 0) 2 = .ok (List.replicate 4 none) :=
  claim8_no_variance_check 4 2 (by norm_num) (by norm_num)

theorem recGo_mask (csta clta : ℚ) (nlta : ℕ) :
    ∀ (xs : List ℚ) (i : ℕ) (sta lta : ℚ) (l : List ℚ),
      recGo csta clta nlta i sta lta xs = .ok l →
      ∀ k, i + k < nlta → l.getD k 0 = 0 := by
  intro xs
  induction xs with
  | nil =>
    intro i sta lta l h k hk
    obtain rfl := Except.ok.inj h
    rfl
  | cons x xs ih =>
    intro i sta lta l h k hk
    rw [recGo] at h
    split at h
    · exact absurd h (by simp)
    · obtain ⟨rest, hrest, hret⟩ := exceptBind_ok _ _ _ h
      obtain rfl := Except.ok.inj hret
      cases k with
      | zero => rw [List.getD_cons_zero, if_pos (by omega)]
      | succ k2 =>
        rw [List.getD_cons_succ]
        exact ih (i + 1) _ _ rest hrest k2 (by omega)

theorem recSTALTAPy_mask (a : List ℚ) (nsta nlta : ℕ) (l : List ℚ)
    (h : recSTALTAPy a nsta nlta = .ok l) :
    ∀ i, i < nlta → l.getD i 0 = 0 := by
  rw [recSTALTAPy.eq_def] at h
  split at h
  · exact absurd h (by simp)
  · cases a with
    | nil =>
      obtain rfl := Except.ok.inj h
      intro i _
      rfl
    | cons x xs =>
      obtain ⟨rest, hrest, hret⟩ := exceptBind_ok _ _ _ h
      obtain rfl := Except.ok.inj hret
      intro i hi
      cases i with
      | zero => rfl
      | succ i2 =>
        rw [List.getD_cons_succ]
        exact recGo_mask _ _ nlta xs 1 _ _ rest hrest i2 (by omega)

theorem carlSTATrig_mask (a : List ℚ) (nsta nlta : ℕ) ( ratio quiet : ℚ)
    (l : List ℚ) (h : carlSTATrig a nsta nlta ratio quiet = .ok l) :
    ∀ j, j < min nlta l.length → l.getD j 0 = -1 := by
  rw [carlSTATrig] at h
  obtain ⟨sta0, he1, h⟩ := exceptBind_ok _ _ _ h
  obtain ⟨lta0, he2, h⟩ := exceptBind_ok _ _ _ h
  obtain ⟨star0, he3, h⟩ := exceptBind_ok _ _ _ h
  obtain ⟨ltar0, he4, h⟩ := exceptBind_ok _ _ _ h
  obtain ⟨t1, he5, h⟩ := exceptBind_ok _ _ _ h
  obtain ⟨d2, he6, h⟩ := exceptBind_ok _ _ _ h
  obtain ⟨t2, he7, h⟩ := exceptBind_ok _ _ _ h
  obtain rfl := Except.ok.inj h
  intro j hj
  rw [maskFront_length] at hj
  exact maskFront_getD_lt _ _ _ _ _ hj

theorem delayedSTALTA_mask (a : List ℚ) (nsta nlta : ℕ) (l : List (Option ℚ))
    (h : delayedSTALTA a nsta nlta = .ok l) :
    ∀ r, r < nlta + nsta + 50 → r < l.length →
      l.getD r none = some 0 ∨ l.getD r none = none := by
  rw [delayedSTALTA] at h
  obtain ⟨p, he1, h⟩ := exceptBind_ok _ _ _ h
  rw [npDivVec] at h
  split at h
  case isTrue hlen =>
    obtain rfl := Except.ok.inj h
    intro r hr hrl
    rw [List.length_zipWith] at hrl
    have hr1 : r < (maskFront p.1 (nlta + nsta + 50) 0).length := by omega
    have hr2 : r < p.2.length := by omega
    rw [zipWith_getD npDiv 0 0 none _ _ r hr1 hr2]
    rw [maskFront_getD_lt _ _ _ _ _ (by rw [maskFront_length] at hr1; omega)]
    rw [npDiv]
    split
    · exact Or.inr rfl
    · left
      rw [zero_div]
  case isFalse => exact absurd h (by simp)

/-- C7 (amended): the recursive, classic, Carl and delayed variants do
force a warm-up prefix (recursive and classic: first `nlta` entries 0;
Carl: first `nlta` entries the sentinel -1.0; delayed: the masked STA
numerator makes every prefix entry 0 or, where the LTA denominator is
zero, NaN), but the Z-detector applies no warm-up mask at all — its
leading entries equal `(0 - mean)/std`, in general neither 0 nor -1 (see
the counterexample). -/
theorem claim7_warmup_masks (a : List ℚ) (nsta nlta : ℕ) ( ratio quiet : ℚ)
    (h1 : 1 ≤ nsta) (h2 : 1 ≤ nlta) (h3 : nsta ≤ a.length)
    (h4 : nlta ≤ a.length) :
    (∀ l, recSTALTAPy a nsta nlta = .ok l → ∀ i, i < nlta → l.getD i 0 = 0) ∧
    (∃ l, classicSTALTA a nsta nlta = .ok l ∧
      ∀ j, j < nlta → l.getD j none = some 0) ∧
    (∀ l, carlSTATrig a nsta nlta ratio quiet = .ok l →
      ∀ j, j < min nlta l.length → l.getD j 0 = -1) ∧
    (∀ l, delayedSTALTA a nsta nlta = .ok l →
      ∀ r, r < nlta + nsta + 50 → r < l.length →
        l.getD r none = some 0 ∨ l.getD r none = none) := by
  refine ⟨fun l h => recSTALTAPy_mask a nsta nlta l h, ?_,
    fun l h => carlSTATrig_mask a nsta nlta ratio quiet l h,
    fun l h => delayedSTALTA_mask a nsta nlta l h⟩
  obtain ⟨l, hl, hlen, hpre, _⟩ := classic_spec a nsta nlta h1 h2 h3 h4
  exact ⟨l, hl, hpre⟩

/-- C7 witness: the four masked variants evaluated on a 5-sample zero
trace with `nsta = 1`, `nlta = 2`. -/
theorem claim7_witness :
    ([(0 : ℚ), 0, 0, 0, 0].getD 0 0 = 0) ∧
    (([some 0, some 0, none, none, none] : List (Option ℚ)).getD 1 none =
      some 0) ∧
    ([(-1 : ℚ), -1, 0, 0, 0].getD 0 0 = -1) ∧
    (([none, none, none, none, none] : List (Option ℚ)).getD 0 none =
        some 0 ∨
      ([none, none, none, none, none] : List (Option ℚ)).getD 0 none =
        none) := by
  have H := claim7_warmup_masks (List.replicate 5 0) 1 2 0 0 (by norm_num)
    (by norm_num) (by simp) (by simp)
  refine ⟨H.1 [0, 0, 0, 0, 0] (by rfl) 0 (by norm_num), ?_,
    H.2.2.1 [-1, -1, 0, 0, 0] (by rfl) 0 (by norm_num),
    H.2.2.2 [none, none, none, none, none] (by rfl) 0 (by norm_num)
      (by norm_num)⟩
  obtain ⟨l, hl, hpre⟩ := H.2.1
  have hconc : classicSTALTA (List.replicate 5 0) 1 2 =
      .ok [some 0, some 0, none, none, none] := by rfl
  rw [hl] at hconc
  obtain rfl := Except.ok.inj hconc
  exact hpre 1 (by norm_num)

theorem npAdd_ok (x y z : List ℚ) (h : npAdd x y = .ok z) :
    x.length = y.length ∧ z.length = x.length := by
  rw [npAdd] at h
  split at h
  case isTrue hxy =>
    obtain rfl := Except.ok.inj h
    refine ⟨hxy, ?_⟩
    rw [List.length_zipWith]
    omega
  case isFalse => exact absurd h (by simp)

theorem npSub_ok (x y z : List ℚ) (h : npSub x y = .ok z) :
    x.length = y.length ∧ z.length = x.length := by
  rw [npSub] at h
  split at h
  case isTrue hxy =>
    obtain rfl := Except.ok.inj h
    refine ⟨hxy, ?_⟩
    rw [List.length_zipWith]
    omega
  case isFalse => exact absurd h (by simp)

theorem npDivVec_ok (x y : List ℚ) (z : List (Option ℚ))
    (h : npDivVec x y = .ok z) :
    x.length = y.length ∧ z.length = x.length := by
  rw [npDivVec] at h
  split at h
  case isTrue hxy =>
    obtain rfl := Except.ok.inj h
    refine ⟨hxy, ?_⟩
    rw [List.length_zipWith]
    omega
  case isFalse => exact absurd h (by simp)

theorem npSumRange_length (f : ℕ → Except PyError (List ℚ)) :
    ∀ (n : ℕ) (init r : List ℚ), npSumRange f n init = .ok r →
      r.length = init.length := by
  intro n
  induction n with
  | zero =>
    intro init r h
    obtain rfl := Except.ok.inj h
    rfl
  | succ n ih =>
    intro init r h
    rw [npSumRange, List.range_succ, List.foldlM_append] at h
    obtain ⟨mid, hmid, h⟩ := exceptBind_ok _ _ _ h
    have hmid2 : npSumRange f n init = .ok mid := hmid
    simp only [List.foldlM_cons, List.foldlM_nil] at h
    obtain ⟨b2, hb2, hpure⟩ := exceptBind_ok _ _ _ h
    obtain ⟨tv, htv, hadd⟩ := exceptBind_ok _ _ _ hb2
    obtain rfl := Except.ok.inj hpure
    rw [(npAdd_ok mid tv b2 hadd).2, ih init mid hmid2]

theorem recGo_length (csta clta : ℚ) (nlta : ℕ) :
    ∀ (xs : List ℚ) (i : ℕ) (sta lta : ℚ) (l : List ℚ),
      recGo csta clta nlta i sta lta xs = .ok l → l.length = xs.length := by
  intro xs
  induction xs with
  | nil =>
    intro i sta lta l h
    obtain rfl := Except.ok.inj h
    rfl
  | cons x xs ih =>
    intro i sta lta l h
    rw [recGo] at h
    split at h
    · exact absurd h (by simp)
    · obtain ⟨rest, hrest, hret⟩ := exceptBind_ok _ _ _ h
      obtain rfl := Except.ok.inj hret
      simp [ih (i + 1) _ _ rest hrest]

theorem recSTALTAPy_length (a : List ℚ) (nsta nlta : ℕ) (l : List ℚ)
    (h : recSTALTAPy a nsta nlta = .ok l) : l.length = a.length := by
  rw [recSTALTAPy.eq_def] at h
  split at h
  · exact absurd h (by simp)
  · cases a with
    | nil =>
      obtain rfl := Except.ok.inj h
      rfl
    | cons x xs =>
      obtain ⟨rest, hrest, hret⟩ := exceptBind_ok _ _ _ h
      obtain rfl := Except.ok.inj hret
      simp [recGo_length _ _ nlta xs 1 _ _ rest hrest]

theorem classicSTALTA_length (a : List ℚ) (nsta nlta : ℕ)
    (l : List (Option ℚ)) (h : classicSTALTA a nsta nlta = .ok l) :
    l.length = a.length := by
  rw [classicSTALTA] at h
  obtain ⟨s0, hs0, h⟩ := exceptBind_ok _ _ _ h
  obtain ⟨l0, hl0, h⟩ := exceptBind_ok _ _ _ h
  have hs0len : s0.length = a.length := by
    have := npSumRange_length _ nsta (List.replicate a.length 0) s0 hs0
    simpa using this
  rw [(npDivVec_ok _ _ _ h).2, maskFront_length, List.length_map, hs0len]

theorem carlSTATrig_length (a : List ℚ) (nsta nlta : ℕ) ( ratio quiet : ℚ)
    (l : List ℚ) (h : carlSTATrig a nsta nlta ratio quiet = .ok l) :
    l.length = a.length := by
  rw [carlSTATrig] at h
  obtain ⟨sta0, he1, h⟩ := exceptBind_ok _ _ _ h
  obtain ⟨lta0, he2, h⟩ := exceptBind_ok _ _ _ h
  obtain ⟨star0, he3, h⟩ := exceptBind_ok _ _ _ h
  obtain ⟨ltar0, he4, h⟩ := exceptBind_ok _ _ _ h
  obtain ⟨t1, he5, h⟩ := exceptBind_ok _ _ _ h
  obtain ⟨d2, he6, h⟩ := exceptBind_ok _ _ _ h
  obtain ⟨t2, he7, h⟩ := exceptBind_ok _ _ _ h
  obtain rfl := Except.ok.inj h
  have hstar : star0.length = a.length := by
    have := npSumRange_length _ nsta (List.replicate a.length 0) star0 he3
    simpa using this
  rw [maskFront_length, List.length_map, (npSub_ok _ _ _ he7).2,
    (npSub_ok _ _ _ he5).2, List.length_map, hstar]

theorem delayedFold_length (a : List ℚ) (nsta nlta : ℕ) :
    ∀ (idx : List ℕ) (p q : List ℚ × List ℚ),
      idx.foldlM (fun (p : List ℚ × List ℚ) (i : ℕ) => do
        let ai ← pyGet a (i : ℤ)
        let a1 ← pyGet a ((i : ℤ) - nsta)
        let s1 ← pyGet p.1 ((i : ℤ) - 1)
        let sv ← pyDiv (ai ^ 2 + a1 ^ 2) (nsta : ℚ)
        let a2 ← pyGet a ((i : ℤ) - nsta - 1)
        let a3 ← pyGet a ((i : ℤ) - nsta - nlta - 1)
        let l1 ← pyGet p.2 ((i : ℤ) - 1)
        let lv ← pyDiv (a2 ^ 2 + a3 ^ 2) (nlta : ℚ)
        .ok (p.1.set i (sv + s1), p.2.set i (lv + l1))) p = .ok q →
      q.1.length = p.1.length ∧ q.2.length = p.2.length := by
  intro idx
  induction idx with
  | nil =>
    intro p q h
    obtain rfl := Except.ok.inj h
    exact ⟨rfl, rfl⟩
  | cons i idx ih =>
    intro p q h
    rw [List.foldlM_cons] at h
    obtain ⟨p2, hp2, h⟩ := exceptBind_ok _ _ _ h
    obtain ⟨ai, hai, hp2⟩ := exceptBind_ok _ _ _ hp2
    obtain ⟨a1, ha1, hp2⟩ := exceptBind_ok _ _ _ hp2
    obtain ⟨s1, hs1, hp2⟩ := exceptBind_ok _ _ _ hp2
    obtain ⟨sv, hsv, hp2⟩ := exceptBind_ok _ _ _ hp2
    obtain ⟨a2, ha2, hp2⟩ := exceptBind_ok _ _ _ hp2
    obtain ⟨a3, ha3, hp2⟩ := exceptBind_ok _ _ _ hp2
    obtain ⟨l1, hl1, hp2⟩ := exceptBind_ok _ _ _ hp2
    obtain ⟨lv, hlv, hp2⟩ := exceptBind_ok _ _ _ hp2
    obtain rfl := Except.ok.inj hp2
    have := ih _ q h
    simpa [List.length_set] using this

theorem delayedSTALTA_length (a : List ℚ) (nsta nlta : ℕ)
    (l : List (Option ℚ)) (h : delayedSTALTA a nsta nlta = .ok l) :
    l.length = a.length := by
  rw [delayedSTALTA] at h
  obtain ⟨p, hp, h⟩ := exceptBind_ok _ _ _ h
  have hlen := delayedFold_length a nsta nlta (List.range a.length)
    (List.replicate a.length 0, List.replicate a.length 0) p hp
  rw [(npDivVec_ok _ _ _ h).2, maskFront_length]
  have := hlen.1
  simpa using this

theorem zDetect_length (a : List ℚ) (nsta : ℕ) (l : List (Option ℚ))
    (h : zDetect a nsta = .ok l) : l.length = a.length := by
  rw [zDetect] at h
  obtain ⟨sta, hsta, h⟩ := exceptBind_ok _ _ _ h
  obtain rfl := Except.ok.inj h
  rw [zSta] at hsta
  rw [List.length_map]
  have := npSumRange_length _ nsta (List.replicate a.length 0) sta hsta
  simpa using this

/-- C9: every characteristic-function variant that returns a CF returns
one of exactly the input length (variants that fail — e.g. delayedSTALTA's
IndexError when `nsta + nlta + 1 > len` — return no CF at all). -/
theorem claim9_length_preserved (a : List ℚ) (nsta nlta : ℕ)
    ( ratio quiet : ℚ) :
    (∀ l, recSTALTAPy a nsta nlta = .ok l → l.length = a.length) ∧
    (∀ l, classicSTALTA a nsta nlta = .ok l → l.length = a.length) ∧
    (∀ l, carlSTATrig a nsta nlta ratio quiet = .ok l →
      l.length = a.length) ∧
    (∀ l, delayedSTALTA a nsta nlta = .ok l → l.length = a.length) ∧
    (∀ l, zDetect a nsta = .ok l → l.length = a.length) :=
  ⟨fun l h => recSTALTAPy_length a nsta nlta l h,
   fun l h => classicSTALTA_length a nsta nlta l h,
   fun l h => carlSTATrig_length a nsta nlta ratio quiet l h,
   fun l h => delayedSTALTA_length a nsta nlta l h,
   fun l h => zDetect_length a nsta l h⟩

/-- C9 witness: all five variants evaluated on a 5-sample zero trace with
`nsta = 1`, `nlta = 2` return CFs of length 5. -/
theorem claim9_witness :
    ([(0 : ℚ), 0, 0, 0, 0].length = (List.replicate 5 (0 : ℚ)).length) ∧
    (([some 0, some 0, none, none, none] : List (Option ℚ)).length =
      (List.replicate 5 (0 : ℚ)).length) ∧
    ([(-1 : ℚ), -1, 0, 0, 0].length = (List.replicate 5 (0 : ℚ)).length) ∧
    (([none, none, none, none, none] : List (Option ℚ)).length =
      (List.replicate 5 (0 : ℚ)).length) ∧
    (([none, none, none, none, none] : List (Option ℚ)).length =
      (List.replicate 5 (0 : ℚ)).length) := by
  have H := claim9_length_preserved (List.replicate 5 0) 1 2 0 0
  exact ⟨H.1 _ (by rfl), H.2.1 _ (by rfl), H.2.2.1 _ (by rfl),
    H.2.2.2.1 _ (by rfl), H.2.2.2.2 _ (by rfl)⟩

end Verification
